import Mathlib

/-!
# Pseudo Shell (psh): background-process table and job control

A shallow embedding of `psh.c` / `psh.h`.

* `pid_t` values are integers; `0` is the empty-slot marker of `bproc`.
* The global array `pid_t bproc[MAXPRC]` is a `List Int` of length `MAXPRC`;
  `bproc[i]` is `bproc.getD i 0` and `bproc[i] = v` is `bproc.set i v`.
* Every `for(i = 0; i < MAXPRC; i++)` loop is a recursive function whose first
  numeric argument is the number of iterations still to run and whose second is
  the loop index `i`; the entry point starts it at `MAXPRC` and `0`.
* System calls (`waitpid`, `wait`, `kill`) are answered by the environment; their
  return values are inputs of the embedded functions.
-/

namespace Psh

/-- Maximum number of processes allowed to run in background (`psh.h`). -/
def MAXPRC : Nat := 2

/-- Signal number of `SIGKILL`. -/
def SIGKILL : Int := 9

/-- The loop of `init_bproc`: `bproc[i] = 0` for each index. -/
def init_bproc_from : Nat → Nat → List Int → List Int
  | 0, _, bproc => bproc
  | k + 1, i, bproc => init_bproc_from k (i + 1) (bproc.set i 0)

/-- Function `init_bproc()`: sets the background pid array to all zeros. The array
itself is the static storage of `MAXPRC` cells. -/
def init_bproc : List Int :=
  init_bproc_from MAXPRC 0 (List.replicate MAXPRC 0)

/-- The loop of `put_bg`: the first index `i` with `bproc[i] == 0` receives `bpid`
and the loop breaks with `placed = true`; when the loop runs out, `placed` is
still `false`. -/
def put_bg_from (bpid : Int) : Nat → Nat → List Int → Bool × List Int
  | 0, _, bproc => (false, bproc)
  | k + 1, i, bproc =>
    if bproc.getD i 0 = 0 then (true, bproc.set i bpid)
    else put_bg_from bpid k (i + 1) bproc

/-- Function `put_bg(pid_t bpid)`: returns `placed` and the array afterwards. -/
def put_bg (bpid : Int) (bproc : List Int) : Bool × List Int :=
  put_bg_from bpid MAXPRC 0 bproc

/-- The loop of `rm_bg`: the first index `i` with `bproc[i] == bpid` is zeroed and
the loop breaks with `removed = true`. -/
def rm_bg_from (bpid : Int) : Nat → Nat → List Int → Bool × List Int
  | 0, _, bproc => (false, bproc)
  | k + 1, i, bproc =>
    if bproc.getD i 0 = bpid then (true, bproc.set i 0)
    else rm_bg_from bpid k (i + 1) bproc

/-- Function `rm_bg(pid_t bpid)`: returns `removed` and the array afterwards. -/
def rm_bg (bpid : Int) (bproc : List Int) : Bool × List Int :=
  rm_bg_from bpid MAXPRC 0 bproc

/-- The loop of `update_status`. `waitpid i` is the value returned by the call
`waitpid(bproc[i], &status, WNOHANG)` made for slot `i`. The second component
collects the pids handed to `print_bg_msg`, in the order they are printed. -/
def update_status_from (waitpid : Nat → Int) :
    Nat → Nat → List Int × List Int → List Int × List Int
  | 0, _, st => st
  | k + 1, i, (bproc, out) =>
    if bproc.getD i 0 ≠ 0 then
      if waitpid i = bproc.getD i 0 then
        update_status_from waitpid k (i + 1)
          ((rm_bg (bproc.getD i 0) bproc).2, out ++ [bproc.getD i 0])
      else update_status_from waitpid k (i + 1) (bproc, out)
    else update_status_from waitpid k (i + 1) (bproc, out)

/-- Function `update_status()`: the array afterwards and the reported pids. -/
def update_status (waitpid : Nat → Int) (bproc : List Int) : List Int × List Int :=
  update_status_from waitpid MAXPRC 0 (bproc, [])

/-- The loop of `kill_all`. `kill i` is the value returned by the call
`kill(bproc[i], SIGKILL)` made for slot `i`. The second component collects the
`(pid, signal)` pairs passed to `kill`. A slot is zeroed in the `else` branch only,
that is when `ret == 0`. -/
def kill_all_from (kill : Nat → Int) :
    Nat → Nat → List Int × List (Int × Int) → List Int × List (Int × Int)
  | 0, _, st => st
  | k + 1, i, (bproc, sent) =>
    if bproc.getD i 0 ≠ 0 then
      if kill i ≠ 0 then
        kill_all_from kill k (i + 1) (bproc, sent ++ [(bproc.getD i 0, SIGKILL)])
      else
        kill_all_from kill k (i + 1) (bproc.set i 0, sent ++ [(bproc.getD i 0, SIGKILL)])
    else kill_all_from kill k (i + 1) (bproc, sent)

/-- Function `kill_all()`: the array afterwards and the signals sent. -/
def kill_all (kill : Nat → Int) (bproc : List Int) : List Int × List (Int × Int) :=
  kill_all_from kill MAXPRC 0 (bproc, [])

/-! ## Command parsing and classification

The command buffer `ucommand` is the list of characters before its terminating
NUL; a read at or past the end yields NUL. Pointers into the buffer are indices. -/

/-- The NUL character. -/
def NUL : Char := Char.ofNat 0

/-- The three separator characters tested in `parseCommand`. -/
def isBlank (c : Char) : Bool :=
  c = Char.ofNat 32 || c = Char.ofNat 9 || c = Char.ofNat 10

/-- First inner loop of `parseCommand`: `while (blank) *ucommand++ = 0`. -/
def skip_blanks : Nat → List Char → Nat → List Char × Nat
  | 0, buf, u => (buf, u)
  | k + 1, buf, u =>
    if isBlank (buf.getD u NUL) then skip_blanks k (buf.set u NUL) (u + 1)
    else (buf, u)

/-- Second inner loop of `parseCommand`: `while (not NUL and not blank) ucommand++`. -/
def skip_arg : Nat → List Char → Nat → Nat
  | 0, _, u => u
  | k + 1, buf, u =>
    if buf.getD u NUL ≠ NUL ∧ isBlank (buf.getD u NUL) = false then skip_arg k buf (u + 1)
    else u

/-- Outer loop of `parseCommand`. Each round moves `ucommand` forward by at least
one character, so `buf.length` rounds always suffice. The count is incremented only
when the character ending the argument is a space. -/
def parse_from : Nat → List Char → Nat → List Nat → Nat → List Char × List Nat × Nat
  | 0, buf, _, argv, count => (buf, argv, count)
  | k + 1, buf, u, argv, count =>
    if buf.getD u NUL ≠ NUL then
      let r := skip_blanks buf.length buf u
      let u2 := skip_arg buf.length r.1 r.2
      parse_from k r.1 u2 (argv ++ [r.2])
        (if r.1.getD u2 NUL = Char.ofNat 32 then count + 1 else count)
    else (buf, argv, count)

/-- Function `parseCommand(ucommand, argv)`: the buffer afterwards, the pointers
stored in `argv` before the terminating NULL, and the returned count. -/
def parseCommand (ucommand : List Char) : List Char × List Nat × Nat :=
  parse_from ucommand.length ucommand 0 [] 0

/-- The C string found at index `p` of the buffer. -/
def cstr (buf : List Char) (p : Nat) : List Char :=
  (buf.drop p).takeWhile (fun c => c ≠ NUL)

/-- Result of the classification step of `main`. -/
structure Classified where
  /-- Flag `bg`. -/
  bg : Bool
  /-- Flag `fg`. -/
  fg : Bool
  /-- The argument strings of `argv` up to its first NULL. -/
  args : List (List Char)
  /-- The value of `numargs`. -/
  numargs : Nat
  deriving DecidableEq, Repr

/-- The argument strings stored by `parseCommand`. -/
def parsedArgs (ucommand : List Char) : List (List Char) :=
  (parseCommand ucommand).2.1.map (cstr (parseCommand ucommand).1)

/-- Lines 373-389 of `main`: `numargs = parseCommand(ucommand, argv)` followed by
the test `strcmp(argv[numargs], "&") == 0`; on a match `argv[numargs] = NULL`, which
cuts the argument list at index `numargs`. `none` when `argv[numargs]` is not a
stored string. -/
def classify (ucommand : List Char) : Option Classified :=
  let numargs := (parseCommand ucommand).2.2
  match (parsedArgs ucommand)[numargs]? with
  | none => none
  | some a =>
    if a = [Char.ofNat 38] then
      some ⟨true, false, (parsedArgs ucommand).take numargs, numargs⟩
    else some ⟨false, true, parsedArgs ucommand, numargs⟩

/-! ## The `kill` built-in -/

/-- Value of a decimal digit character. -/
def digitVal (c : Char) : Option Nat :=
  if 48 ≤ c.toNat ∧ c.toNat ≤ 57 then some (c.toNat - 48) else none

/-- Digit accumulation of `atoi`. -/
def atoi_digits : List Char → Nat → Nat
  | [], acc => acc
  | c :: cs, acc =>
    match digitVal c with
    | some d => atoi_digits cs (acc * 10 + d)
    | none => acc

/-- Largest value of the C type `long` (64 bits). -/
def LONG_MAX : Int := 9223372036854775807

/-- Result of `strtol` for a sign and a digit value: the value itself, or `LONG_MAX` /
`LONG_MIN` when it does not fit in a `long`. -/
def strtol_value (negative : Bool) (n : Nat) : Int :=
  if negative then
    if LONG_MAX + 1 < (n : Int) then - (LONG_MAX + 1) else - (n : Int)
  else
    if LONG_MAX < (n : Int) then LONG_MAX else (n : Int)

/-- Conversion of a `long` to the 32-bit type `int` (two's complement wrap). -/
def to_int (v : Int) : Int :=
  (v + 2147483648) % 4294967296 - 2147483648

/-- C library `atoi`, that is `(int) strtol(s, NULL, 10)`: leading white space, an
optional sign, then digits up to the first other character; the `long` result is
converted to `int`. -/
def atoi (s : List Char) : Int :=
  match s.dropWhile (fun c => c.toNat = 32 ∨ (9 ≤ c.toNat ∧ c.toNat ≤ 13)) with
  | [] => 0
  | c :: cs =>
    if c = Char.ofNat 45 then to_int (strtol_value true (atoi_digits cs 0))
    else if c = Char.ofNat 43 then to_int (strtol_value false (atoi_digits cs 0))
    else to_int (strtol_value false (atoi_digits (c :: cs) 0))

/-- How the forked child leaves the `kill` block of `main`. -/
inductive KillExit where
  /-- The diagnostic branch: `exit(0)` at the protected-pid test. -/
  | refused
  /-- The block is left and control moves on to the `cat` test and `execvp`. -/
  | passed
  /-- The expression `atoi(argv[i])` read `argv[i]` at or past the terminating NULL. -/
  | fault
  /-- The child's own `kill(..., SIGKILL)` call delivered the signal to the child. -/
  | killed
  deriving DecidableEq, Repr

/-- Whether `kill(target, SIGKILL)`, called by a process with pid `self_pid` in
process group `pgrp`, delivers the signal to the caller itself: the target is the
caller's pid, or 0 (every process of the caller's group), or below -1 and the
negation of the caller's group id. -/
def kill_hits_caller (self_pid pgrp target : Int) : Bool :=
  target = self_pid || target = 0 || (target < -1 && -target = pgrp)

/-- The loop `for(i = 1; i <= MAXPRC; i++)` of the `kill` block, run by the forked
child, whose pid is `self_pid` and whose process group is `pgrp`. The table is the
child's copy of `bproc`; the last component collects the `(pid, signal)` pairs
passed to `kill`. The loop goes on after a `kill` call only when the signal did not
reach the child itself. -/
def kill_loop (main_pid shell_pid self_pid pgrp : Int) (argv : List (List Char)) :
    Nat → Nat → List Int × List (Int × Int) → KillExit × List Int × List (Int × Int)
  | 0, _, st => (KillExit.passed, st)
  | k + 1, i, (bproc, sent) =>
    match argv[i]? with
    | none => (KillExit.fault, bproc, sent)
    | some a =>
      if atoi a = main_pid ∨ atoi a = shell_pid then (KillExit.refused, bproc, sent)
      else if kill_hits_caller self_pid pgrp (atoi a) then
        (KillExit.killed, (rm_bg (atoi a) bproc).2, sent ++ [(atoi a, SIGKILL)])
      else
        kill_loop main_pid shell_pid self_pid pgrp argv k (i + 1)
          ((rm_bg (atoi a) bproc).2, sent ++ [(atoi a, SIGKILL)])

/-- The string `kill`. -/
def killWord : List Char := [Char.ofNat 107, Char.ofNat 105, Char.ofNat 108, Char.ofNat 108]

/-- Lines 415-433 of `main`, run in the forked child: entered when `numargs >= 1`
and `argv[0]` is the string `kill`. -/
def kill_builtin (main_pid shell_pid self_pid pgrp : Int) (argv : List (List Char))
    (numargs : Nat) (bproc : List Int) : KillExit × List Int × List (Int × Int) :=
  if 1 ≤ numargs then
    match argv[0]? with
    | none => (KillExit.fault, bproc, [])
    | some a =>
      if a = killWord then
        kill_loop main_pid shell_pid self_pid pgrp argv MAXPRC 1 (bproc, [])
      else (KillExit.passed, bproc, [])
  else (KillExit.passed, bproc, [])

/-! ## The main loop (parent side) -/

/-- What the shell process holds and has done so far. -/
structure Shell where
  /-- The background pid array. -/
  bproc : List Int
  /-- Pids of children whose termination the shell has collected through `wait`
  or `waitpid`, in order. -/
  reaped : List Int
  /-- The `(pid, signal)` pairs the shell has passed to `kill`. -/
  sent : List (Int × Int)
  deriving DecidableEq, Repr

/-- State after the initialization section of `main`. -/
def Shell.init : Shell := ⟨init_bproc, [], []⟩

/-- One call of `update_status()` by the shell. -/
def reconcile (waitpid : Nat → Int) (st : Shell) : Shell :=
  { st with
    bproc := (update_status waitpid st.bproc).1
    reaped := st.reaped ++ (update_status waitpid st.bproc).2 }

/-- The loop `while(wait(&status) != fg_pid);`. The list holds the successive
return values of `wait`; a positive value is the pid of a child that this call
collected. `none` when the values run out before `fg_pid` is returned (the shell is
still blocked). -/
def fg_wait (fg_pid : Int) : List Int → List Int → Option (List Int)
  | [], _ => none
  | r :: rest, reaped =>
    if r ≠ fg_pid then fg_wait fg_pid rest (if 0 < r then reaped ++ [r] else reaped)
    else some (if 0 < r then reaped ++ [r] else reaped)

/-- Foreground branch of the parent (lines 449-476). -/
def foreground_run (pid : Int) (waits : List Int) (st : Shell) : Option Shell :=
  (fg_wait pid waits st.reaped).map (fun r => { st with reaped := r })

/-- Background branch of the parent (lines 477-509). `wp` is the value returned by
`waitpid(bg_pid, &status, WNOHANG)`. -/
def background_launch (pid : Int) (wp : Int) (st : Shell) : Shell :=
  if (put_bg pid st.bproc).1 = false then
    { st with bproc := (put_bg pid st.bproc).2, sent := st.sent ++ [(pid, SIGKILL)] }
  else if wp = pid then
    { st with
      bproc := (rm_bg pid (put_bg pid st.bproc).2).2
      reaped := st.reaped ++ [pid] }
  else { st with bproc := (put_bg pid st.bproc).2 }

/-- What the environment supplies during one round of the `while (1)` loop of
`main` in which a command is forked. -/
structure Round where
  /-- Answers of `waitpid` to the `update_status()` call at the loop top. -/
  top : Nat → Int
  /-- Answers of `waitpid` to the `update_status()` call of the first prompt round. -/
  prompt1 : Nat → Int
  /-- The same for each further prompt round (after an empty line). -/
  promptMore : List (Nat → Int)
  /-- The flag `bg` set by the classification step (`fg` is its negation). -/
  bg : Bool
  /-- The value returned by `fork` (the child's pid, or negative on failure). -/
  pid : Int
  /-- Return values of `wait` in the foreground loop. -/
  waits : List Int
  /-- Return value of `waitpid(bg_pid, &status, WNOHANG)` in the background branch. -/
  bgcheck : Int

/-- One round of the main loop, parent side. After the status checks and the
classification comes `pid = fork()`: on `pid < 0` the shell prints its error and
leaves through `exit(1)`; `pid == 0` is the branch of the forked child, which ends
in `exit` or `execvp` and never comes back to the loop; otherwise the parent runs
the foreground or the background branch. `none` when the shell does not reach the
end of the round (the two cases above, or a foreground loop still blocked). -/
def main_round (r : Round) (st : Shell) : Option Shell :=
  let st1 := reconcile r.top st
  let st2 := reconcile r.prompt1 st1
  let st3 := r.promptMore.foldl (fun s w => reconcile w s) st2
  if r.pid < 0 then none
  else if r.pid = 0 then none
  else if r.bg then some (background_launch r.pid r.bgcheck st3)
  else foreground_run r.pid r.waits st3

/-- Successive rounds of the main loop. -/
def main_rounds : List Round → Shell → Option Shell
  | [], st => some st
  | r :: rs, st =>
    match main_round r st with
    | none => none
    | some st1 => main_rounds rs st1

/-! ## Predicates used in the statements -/

/-- The occupied slots of the table hold pairwise different pids. -/
def DistinctPids (bproc : List Int) : Prop :=
  bproc.Pairwise (fun a b => a ≠ 0 → a ≠ b)

instance (bproc : List Int) : Decidable (DistinctPids bproc) := by
  unfold DistinctPids
  infer_instance

/-- A round in which no child is seen to finish: every `waitpid(..., WNOHANG)` call
of the round returns 0 (child still running). -/
def Round.quiet (r : Round) : Prop :=
  (∀ i, r.top i = 0) ∧ (∀ i, r.prompt1 i = 0) ∧
    (∀ w ∈ r.promptMore, ∀ i, w i = 0) ∧ r.bgcheck = 0

/-- A round that forks a background command with child pid `p` while every status
check answers 0. -/
def quietBg (p : Int) : Round :=
  ⟨fun _ => 0, fun _ => 0, [], true, p, [], 0⟩

/-- A round that forks a foreground command with child pid `p`, every status check
answering 0 and `wait` returning the values of `waits` in turn. -/
def fgRound (p : Int) (waits : List Int) : Round :=
  ⟨fun _ => 0, fun _ => 0, [], false, p, waits, 0⟩

/-- The path of a command line to the end of the `kill` block in the forked child:
`parseCommand`, the classification step, then lines 415-433 on the child's copy of
the table. -/
def child_kill (main_pid shell_pid self_pid pgrp : Int) (ucommand : List Char)
    (bproc : List Int) : Option (KillExit × List Int × List (Int × Int)) :=
  (classify ucommand).map
    (fun c => kill_builtin main_pid shell_pid self_pid pgrp c.args c.numargs bproc)

/-- The test of the `kill` block on one argument: `atoi(argv[i]) == main_pid ||
atoi(argv[i]) == shell_pid`. -/
def protectedArg (main_pid shell_pid : Int) (a : List Char) : Prop :=
  atoi a = main_pid ∨ atoi a = shell_pid

instance (main_pid shell_pid : Int) (a : List Char) :
    Decidable (protectedArg main_pid shell_pid a) := by
  unfold protectedArg
  infer_instance

/-! ## Generic facts about the scanning loops -/

theorem put_bg_from_spec (bpid : Int) (k : Nat) :
    ∀ (i : Nat) (bproc : List Int),
      ((put_bg_from bpid k i bproc).1 = true ∧
          ∃ j, i ≤ j ∧ j < i + k ∧ bproc.getD j 0 = 0 ∧
            (∀ l, i ≤ l → l < j → bproc.getD l 0 ≠ 0) ∧
            (put_bg_from bpid k i bproc).2 = bproc.set j bpid) ∨
      ((put_bg_from bpid k i bproc).1 = false ∧
          (∀ j, i ≤ j → j < i + k → bproc.getD j 0 ≠ 0) ∧
          (put_bg_from bpid k i bproc).2 = bproc) := by
  induction k with
  | zero =>
    intro i bproc
    right
    refine ⟨rfl, ?_, rfl⟩
    intro j h1 h2
    omega
  | succ k ih =>
    intro i bproc
    by_cases h : bproc.getD i 0 = 0
    · left
      simp only [put_bg_from, h, if_true]
      refine ⟨trivial, i, le_refl _, by omega, h, ?_, rfl⟩
      intro l h1 h2
      omega
    · simp only [put_bg_from, h, if_false]
      rcases ih (i + 1) bproc with ⟨h1, j, hj1, hj2, hj3, hj4, hj5⟩ | ⟨h1, h2, h3⟩
      · left
        refine ⟨h1, j, by omega, by omega, hj3, ?_, hj5⟩
        intro l hl1 hl2
        by_cases hli : l = i
        · subst hli; exact h
        · exact hj4 l (by omega) hl2
      · right
        refine ⟨h1, ?_, h3⟩
        intro j hj1 hj2
        by_cases hji : j = i
        · subst hji; exact h
        · exact h2 j (by omega) (by omega)

theorem rm_bg_from_spec (bpid : Int) (k : Nat) :
    ∀ (i : Nat) (bproc : List Int),
      ((rm_bg_from bpid k i bproc).1 = true ∧
          ∃ j, i ≤ j ∧ j < i + k ∧ bproc.getD j 0 = bpid ∧
            (∀ l, i ≤ l → l < j → bproc.getD l 0 ≠ bpid) ∧
            (rm_bg_from bpid k i bproc).2 = bproc.set j 0) ∨
      ((rm_bg_from bpid k i bproc).1 = false ∧
          (∀ j, i ≤ j → j < i + k → bproc.getD j 0 ≠ bpid) ∧
          (rm_bg_from bpid k i bproc).2 = bproc) := by
  induction k with
  | zero =>
    intro i bproc
    right
    refine ⟨rfl, ?_, rfl⟩
    intro j h1 h2
    omega
  | succ k ih =>
    intro i bproc
    by_cases h : bproc.getD i 0 = bpid
    · left
      simp only [rm_bg_from, h, if_true]
      refine ⟨trivial, i, le_refl _, by omega, h, ?_, rfl⟩
      intro l h1 h2
      omega
    · simp only [rm_bg_from, h, if_false]
      rcases ih (i + 1) bproc with ⟨h1, j, hj1, hj2, hj3, hj4, hj5⟩ | ⟨h1, h2, h3⟩
      · left
        refine ⟨h1, j, by omega, by omega, hj3, ?_, hj5⟩
        intro l hl1 hl2
        by_cases hli : l = i
        · subst hli; exact h
        · exact hj4 l (by omega) hl2
      · right
        refine ⟨h1, ?_, h3⟩
        intro j hj1 hj2
        by_cases hji : j = i
        · subst hji; exact h
        · exact h2 j (by omega) (by omega)

theorem getD_set_self (l : List Int) (i : Nat) (v : Int) (h : i < l.length) :
    (l.set i v).getD i 0 = v := by
  simp [List.getD_eq_getElem?_getD, List.getElem?_set, h]

theorem getD_set_other (l : List Int) (i j : Nat) (v : Int) (h : j ≠ i) :
    (l.set i v).getD j 0 = l.getD j 0 := by
  have h2 : ¬ i = j := fun e => h e.symm
  simp [List.getD_eq_getElem?_getD, List.getElem?_set, h2]

theorem getD_of_length_le (l : List Int) (i : Nat) (h : l.length ≤ i) :
    l.getD i 0 = 0 := by
  simp [List.getD_eq_getElem?_getD, List.getElem?_eq_none h]

theorem lt_length_of_getD_ne_zero (l : List Int) (i : Nat) (h : l.getD i 0 ≠ 0) :
    i < l.length := by
  by_contra hc
  exact h (getD_of_length_le l i (by omega))

theorem getD_eq_get (l : List Int) (i : Nat) (h : i < l.length) :
    l.getD i 0 = l.get ⟨i, h⟩ := by
  simp [List.getD_eq_getElem?_getD, List.getElem?_eq_getElem h]

theorem idx_eq_of_count_le_one (l : List Int) (p : Int) (hp : p ≠ 0)
    (hc : l.count p ≤ 1) (a b : Nat) (ha : l.getD a 0 = p) (hb : l.getD b 0 = p) :
    a = b := by
  by_contra hne
  have hal : a < l.length := lt_length_of_getD_ne_zero l a (by rw [ha]; exact hp)
  have hbl : b < l.length := lt_length_of_getD_ne_zero l b (by rw [hb]; exact hp)
  have hdup : l.Duplicate p := by
    rw [List.duplicate_iff_exists_distinct_get]
    rcases Nat.lt_or_gt_of_ne hne with h | h
    · exact ⟨⟨a, hal⟩, ⟨b, hbl⟩, h, by rw [← getD_eq_get l a hal, ha],
        by rw [← getD_eq_get l b hbl, hb]⟩
    · exact ⟨⟨b, hbl⟩, ⟨a, hal⟩, h, by rw [← getD_eq_get l b hbl, hb],
        by rw [← getD_eq_get l a hal, ha]⟩
  rw [List.duplicate_iff_two_le_count] at hdup
  omega

/-! ## The table operations -/

/-- C1: `put_bg` returns true exactly when some slot of `bproc` is empty; on true the
lowest-indexed empty slot holds the pid afterwards and every other slot is
unchanged; on false the table is unchanged. -/
theorem put_bg_contract (bproc : List Int) (bpid : Int) (hlen : bproc.length = MAXPRC) :
    ((put_bg bpid bproc).1 = true ↔ ∃ i, i < MAXPRC ∧ bproc.getD i 0 = 0) ∧
    ((put_bg bpid bproc).1 = true →
      ∃ i, i < MAXPRC ∧ bproc.getD i 0 = 0 ∧ (∀ l, l < i → bproc.getD l 0 ≠ 0) ∧
        (put_bg bpid bproc).2.getD i 0 = bpid ∧
        (∀ j, j ≠ i → (put_bg bpid bproc).2.getD j 0 = bproc.getD j 0) ∧
        (put_bg bpid bproc).2.length = MAXPRC) ∧
    ((put_bg bpid bproc).1 = false → (put_bg bpid bproc).2 = bproc) := by
  unfold put_bg
  rcases put_bg_from_spec bpid MAXPRC 0 bproc with
    ⟨h1, j, _, hj2, hj3, hj4, hj5⟩ | ⟨h1, h2, h3⟩
  · have hjlt : j < MAXPRC := by omega
    refine ⟨⟨fun _ => ⟨j, hjlt, hj3⟩, fun _ => h1⟩, ?_, ?_⟩
    · intro _
      refine ⟨j, hjlt, hj3, fun l hl => hj4 l (Nat.zero_le _) hl, ?_, ?_, ?_⟩
      · rw [hj5]; exact getD_set_self bproc j bpid (by omega)
      · intro i hi
        rw [hj5]; exact getD_set_other bproc j i bpid hi
      · rw [hj5]; simp [hlen]
    · intro hf
      rw [h1] at hf
      exact absurd hf (by decide)
  · refine ⟨⟨fun ht => ?_, fun ⟨i, hi, hz⟩ => ?_⟩, fun ht => ?_, fun _ => h3⟩
    · rw [h1] at ht; exact absurd ht (by decide)
    · exact absurd hz (h2 i (Nat.zero_le _) (by omega))
    · rw [h1] at ht; exact absurd ht (by decide)

theorem put_bg_contract_witness :
    ((put_bg 7 [5, 0]).1 = true ↔ ∃ i, i < MAXPRC ∧ ([5, 0] : List Int).getD i 0 = 0) ∧
    ((put_bg 7 [5, 0]).1 = true →
      ∃ i, i < MAXPRC ∧ ([5, 0] : List Int).getD i 0 = 0 ∧
        (∀ l, l < i → ([5, 0] : List Int).getD l 0 ≠ 0) ∧
        (put_bg 7 [5, 0]).2.getD i 0 = 7 ∧
        (∀ j, j ≠ i → (put_bg 7 [5, 0]).2.getD j 0 = ([5, 0] : List Int).getD j 0) ∧
        (put_bg 7 [5, 0]).2.length = MAXPRC) ∧
    ((put_bg 7 [5, 0]).1 = false → (put_bg 7 [5, 0]).2 = [5, 0]) :=
  put_bg_contract [5, 0] 7 (by decide)

/-- C2: `rm_bg` returns true exactly when some slot held the pid before the call; on
true one slot that held the pid (the lowest-indexed one) is empty afterwards and
every other slot is unchanged; on false the table is unchanged. -/
theorem rm_bg_contract (bproc : List Int) (bpid : Int) (hlen : bproc.length = MAXPRC) :
    ((rm_bg bpid bproc).1 = true ↔ ∃ i, i < MAXPRC ∧ bproc.getD i 0 = bpid) ∧
    ((rm_bg bpid bproc).1 = true →
      ∃ i, i < MAXPRC ∧ bproc.getD i 0 = bpid ∧ (∀ l, l < i → bproc.getD l 0 ≠ bpid) ∧
        (rm_bg bpid bproc).2.getD i 0 = 0 ∧
        (∀ j, j ≠ i → (rm_bg bpid bproc).2.getD j 0 = bproc.getD j 0) ∧
        (rm_bg bpid bproc).2.length = MAXPRC) ∧
    ((rm_bg bpid bproc).1 = false → (rm_bg bpid bproc).2 = bproc) := by
  unfold rm_bg
  rcases rm_bg_from_spec bpid MAXPRC 0 bproc with
    ⟨h1, j, _, hj2, hj3, hj4, hj5⟩ | ⟨h1, h2, h3⟩
  · have hjlt : j < MAXPRC := by omega
    refine ⟨⟨fun _ => ⟨j, hjlt, hj3⟩, fun _ => h1⟩, ?_, ?_⟩
    · intro _
      refine ⟨j, hjlt, hj3, fun l hl => hj4 l (Nat.zero_le _) hl, ?_, ?_, ?_⟩
      · rw [hj5]; exact getD_set_self bproc j 0 (by omega)
      · intro i hi
        rw [hj5]; exact getD_set_other bproc j i 0 hi
      · rw [hj5]; simp [hlen]
    · intro hf
      rw [h1] at hf
      exact absurd hf (by decide)
  · refine ⟨⟨fun ht => ?_, fun ⟨i, hi, hz⟩ => ?_⟩, fun ht => ?_, fun _ => h3⟩
    · rw [h1] at ht; exact absurd ht (by decide)
    · exact absurd hz (h2 i (Nat.zero_le _) (by omega))
    · rw [h1] at ht; exact absurd ht (by decide)

theorem rm_bg_contract_witness :
    ((rm_bg 5 [7, 5]).1 = true ↔ ∃ i, i < MAXPRC ∧ ([7, 5] : List Int).getD i 0 = 5) ∧
    ((rm_bg 5 [7, 5]).1 = true →
      ∃ i, i < MAXPRC ∧ ([7, 5] : List Int).getD i 0 = 5 ∧
        (∀ l, l < i → ([7, 5] : List Int).getD l 0 ≠ 5) ∧
        (rm_bg 5 [7, 5]).2.getD i 0 = 0 ∧
        (∀ j, j ≠ i → (rm_bg 5 [7, 5]).2.getD j 0 = ([7, 5] : List Int).getD j 0) ∧
        (rm_bg 5 [7, 5]).2.length = MAXPRC) ∧
    ((rm_bg 5 [7, 5]).1 = false → (rm_bg 5 [7, 5]).2 = [7, 5]) :=
  rm_bg_contract [7, 5] 5 (by decide)

theorem distinct_idx (l : List Int) (h : DistinctPids l) :
    ∀ a b, a ≠ b → l.getD a 0 ≠ 0 → l.getD a 0 ≠ l.getD b 0 := by
  intro a b hab hnz heq
  have hal : a < l.length := lt_length_of_getD_ne_zero l a hnz
  have hbl : b < l.length := lt_length_of_getD_ne_zero l b (by rw [← heq]; exact hnz)
  unfold DistinctPids at h
  rw [List.pairwise_iff_getElem] at h
  have ea : l.getD a 0 = l[a] := by
    simp [List.getD_eq_getElem?_getD, List.getElem?_eq_getElem hal]
  have eb : l.getD b 0 = l[b] := by
    simp [List.getD_eq_getElem?_getD, List.getElem?_eq_getElem hbl]
  rw [ea] at hnz heq
  rw [eb] at heq
  rcases Nat.lt_or_gt_of_ne hab with hlt | hlt
  · exact h a b hal hbl hlt hnz heq
  · exact h b a hbl hal hlt (by rw [← heq]; exact hnz) heq.symm

theorem distinct_idx_set (cur : List Int) (i : Nat)
    (hD : ∀ a b, a ≠ b → cur.getD a 0 ≠ 0 → cur.getD a 0 ≠ cur.getD b 0) :
    ∀ a b, a ≠ b → (cur.set i 0).getD a 0 ≠ 0 →
      (cur.set i 0).getD a 0 ≠ (cur.set i 0).getD b 0 := by
  intro a b hab hnz
  by_cases hai : a = i
  · exfalso
    subst hai
    by_cases hl : a < cur.length
    · exact hnz (getD_set_self cur a 0 hl)
    · exact hnz (getD_of_length_le _ a (by simp; omega))
  · rw [getD_set_other cur i a 0 hai] at hnz ⊢
    by_cases hbi : b = i
    · subst hbi
      by_cases hl : b < cur.length
      · rw [getD_set_self cur b 0 hl]; exact hnz
      · rw [getD_of_length_le _ b (by simp; omega)]; exact hnz
    · rw [getD_set_other cur i b 0 hbi]
      exact hD a b hab hnz

theorem rm_bg_at (cur : List Int) (i : Nat) (hi : i < MAXPRC)
    (hnz : cur.getD i 0 ≠ 0)
    (hD : ∀ a b, a ≠ b → cur.getD a 0 ≠ 0 → cur.getD a 0 ≠ cur.getD b 0) :
    (rm_bg (cur.getD i 0) cur).2 = cur.set i 0 := by
  unfold rm_bg
  rcases rm_bg_from_spec (cur.getD i 0) MAXPRC 0 cur with
    ⟨_, j, _, _, hj3, _, hj5⟩ | ⟨_, h2, _⟩
  · by_cases hji : j = i
    · rw [hj5, hji]
    · exact absurd hj3.symm (hD i j (fun e => hji e.symm) hnz)
  · exact absurd rfl (h2 i (Nat.zero_le _) (by omega))

theorem reports_congr (w : Nat → Int) (cur cur2 : List Int) (k : Nat) :
    ∀ i, (∀ j, i ≤ j → cur2.getD j 0 = cur.getD j 0) →
      ((List.range' i k).filter
          (fun j => decide (cur2.getD j 0 ≠ 0 ∧ w j = cur2.getD j 0))).map
          (fun j => cur2.getD j 0) =
      ((List.range' i k).filter
          (fun j => decide (cur.getD j 0 ≠ 0 ∧ w j = cur.getD j 0))).map
          (fun j => cur.getD j 0) := by
  induction k with
  | zero => intro i _; rfl
  | succ k ih =>
    intro i h
    have e := h i (le_refl _)
    have r := ih (i + 1) (fun j hj => h j (by omega))
    simp only [List.range'_succ, List.filter_cons, e]
    split
    · simp only [List.map_cons, e]
      rw [r]
    · exact r

theorem update_status_from_spec (w : Nat → Int) (k : Nat) :
    ∀ (i : Nat) (cur out : List Int),
      (∀ a b, a ≠ b → cur.getD a 0 ≠ 0 → cur.getD a 0 ≠ cur.getD b 0) →
      i + k ≤ MAXPRC →
      (∀ j, (update_status_from w k i (cur, out)).1.getD j 0 =
          if i ≤ j ∧ j < i + k ∧ cur.getD j 0 ≠ 0 ∧ w j = cur.getD j 0 then 0
          else cur.getD j 0) ∧
      (update_status_from w k i (cur, out)).1.length = cur.length ∧
      (update_status_from w k i (cur, out)).2 =
        out ++ ((List.range' i k).filter
          (fun j => decide (cur.getD j 0 ≠ 0 ∧ w j = cur.getD j 0))).map
          (fun j => cur.getD j 0) := by
  induction k with
  | zero =>
    intro i cur out _ _
    refine ⟨fun j => ?_, rfl, by simp [update_status_from]⟩
    have : ¬ (i ≤ j ∧ j < i + 0 ∧ cur.getD j 0 ≠ 0 ∧ w j = cur.getD j 0) := by
      intro h; omega
    simp only [update_status_from, if_neg this]
  | succ k ih =>
    intro i cur out hD hik
    by_cases ht : cur.getD i 0 ≠ 0 ∧ w i = cur.getD i 0
    · have hrm := rm_bg_at cur i (by omega) ht.1 hD
      have hstep : update_status_from w (k + 1) i (cur, out) =
          update_status_from w k (i + 1) (cur.set i 0, out ++ [cur.getD i 0]) := by
        simp only [update_status_from, ht.1, ht.2, ne_eq, not_false_eq_true, if_true, hrm]
      rw [hstep]
      obtain ⟨a1, a2, a3⟩ := ih (i + 1) (cur.set i 0) (out ++ [cur.getD i 0])
        (distinct_idx_set cur i hD) (by omega)
      refine ⟨fun j => ?_, by rw [a2]; simp, ?_⟩
      · rw [a1 j]
        by_cases hji : j = i
        · subst hji
          have hl : j < cur.length := lt_length_of_getD_ne_zero cur j ht.1
          have c1 : ¬ (j + 1 ≤ j ∧ j < j + 1 + k ∧ (cur.set j 0).getD j 0 ≠ 0 ∧
              w j = (cur.set j 0).getD j 0) := by intro h; omega
          have c2 : j ≤ j ∧ j < j + (k + 1) ∧ cur.getD j 0 ≠ 0 ∧ w j = cur.getD j 0 :=
            ⟨le_refl _, by omega, ht.1, ht.2⟩
          rw [if_neg c1, if_pos c2]
          exact getD_set_self cur j 0 hl
        · rw [getD_set_other cur i j 0 hji]
          by_cases c : i ≤ j ∧ j < i + (k + 1) ∧ cur.getD j 0 ≠ 0 ∧ w j = cur.getD j 0
          · have c2 : i + 1 ≤ j ∧ j < i + 1 + k ∧ cur.getD j 0 ≠ 0 ∧ w j = cur.getD j 0 :=
              ⟨by omega, by omega, c.2.2.1, c.2.2.2⟩
            rw [if_pos c, if_pos c2]
          · have c2 : ¬ (i + 1 ≤ j ∧ j < i + 1 + k ∧ cur.getD j 0 ≠ 0 ∧
                w j = cur.getD j 0) := by
              intro h
              exact c ⟨by omega, by omega, h.2.2.1, h.2.2.2⟩
            rw [if_neg c, if_neg c2]
      · rw [a3, reports_congr w cur (cur.set i 0) k (i + 1)
          (fun j hj => getD_set_other cur i j 0 (by omega))]
        simp only [List.range'_succ, List.filter_cons, ht, and_self, decide_True, if_true,
          List.map_cons, List.append_assoc, List.singleton_append, ne_eq, not_false_eq_true]
    · have hstep : update_status_from w (k + 1) i (cur, out) =
          update_status_from w k (i + 1) (cur, out) := by
        by_cases hz : cur.getD i 0 ≠ 0
        · have hw : ¬ w i = cur.getD i 0 := fun e => ht ⟨hz, e⟩
          simp only [update_status_from, hz, hw, ne_eq, not_false_eq_true, if_true, if_false]
        · simp only [update_status_from, hz, if_false]
      rw [hstep]
      obtain ⟨a1, a2, a3⟩ := ih (i + 1) cur out hD (by omega)
      refine ⟨fun j => ?_, a2, ?_⟩
      · rw [a1 j]
        by_cases c : i ≤ j ∧ j < i + (k + 1) ∧ cur.getD j 0 ≠ 0 ∧ w j = cur.getD j 0
        · have hji : j ≠ i := by
            intro e; subst e; exact ht ⟨c.2.2.1, c.2.2.2⟩
          have c2 : i + 1 ≤ j ∧ j < i + 1 + k ∧ cur.getD j 0 ≠ 0 ∧ w j = cur.getD j 0 :=
            ⟨by omega, by omega, c.2.2.1, c.2.2.2⟩
          rw [if_pos c, if_pos c2]
        · have c2 : ¬ (i + 1 ≤ j ∧ j < i + 1 + k ∧ cur.getD j 0 ≠ 0 ∧
              w j = cur.getD j 0) := by
            intro h
            exact c ⟨by omega, by omega, h.2.2.1, h.2.2.2⟩
          rw [if_neg c, if_neg c2]
      · rw [a3]
        simp only [List.range'_succ, List.filter_cons, ht, decide_False, Bool.false_eq_true,
          if_false]

theorem kill_sent_congr (cur cur2 : List Int) (k : Nat) :
    ∀ i, (∀ j, i ≤ j → cur2.getD j 0 = cur.getD j 0) →
      ((List.range' i k).filter (fun j => decide (cur2.getD j 0 ≠ 0))).map
          (fun j => (cur2.getD j 0, SIGKILL)) =
      ((List.range' i k).filter (fun j => decide (cur.getD j 0 ≠ 0))).map
          (fun j => (cur.getD j 0, SIGKILL)) := by
  induction k with
  | zero => intro i _; rfl
  | succ k ih =>
    intro i h
    have e := h i (le_refl _)
    have r := ih (i + 1) (fun j hj => h j (by omega))
    simp only [List.range'_succ, List.filter_cons, e]
    split
    · simp only [List.map_cons, e]
      rw [r]
    · exact r

theorem kill_all_from_spec (kill : Nat → Int) (k : Nat) :
    ∀ (i : Nat) (cur : List Int) (sent : List (Int × Int)),
      (∀ j, (kill_all_from kill k i (cur, sent)).1.getD j 0 =
          if i ≤ j ∧ j < i + k ∧ cur.getD j 0 ≠ 0 ∧ kill j = 0 then 0
          else cur.getD j 0) ∧
      (kill_all_from kill k i (cur, sent)).1.length = cur.length ∧
      (kill_all_from kill k i (cur, sent)).2 =
        sent ++ ((List.range' i k).filter (fun j => decide (cur.getD j 0 ≠ 0))).map
          (fun j => (cur.getD j 0, SIGKILL)) := by
  induction k with
  | zero =>
    intro i cur sent
    refine ⟨fun j => ?_, rfl, by simp [kill_all_from]⟩
    have : ¬ (i ≤ j ∧ j < i + 0 ∧ cur.getD j 0 ≠ 0 ∧ kill j = 0) := by
      intro h; omega
    simp only [kill_all_from, if_neg this]
  | succ k ih =>
    intro i cur sent
    by_cases hz : cur.getD i 0 ≠ 0
    · by_cases hk : kill i = 0
      · have hstep : kill_all_from kill (k + 1) i (cur, sent) =
            kill_all_from kill k (i + 1)
              (cur.set i 0, sent ++ [(cur.getD i 0, SIGKILL)]) := by
          simp only [kill_all_from, hz, hk, ne_eq, not_false_eq_true, if_true,
            not_true_eq_false, if_false]
        rw [hstep]
        obtain ⟨a1, a2, a3⟩ := ih (i + 1) (cur.set i 0) (sent ++ [(cur.getD i 0, SIGKILL)])
        refine ⟨fun j => ?_, by rw [a2]; simp, ?_⟩
        · rw [a1 j]
          by_cases hji : j = i
          · subst hji
            have hl : j < cur.length := lt_length_of_getD_ne_zero cur j hz
            have c1 : ¬ (j + 1 ≤ j ∧ j < j + 1 + k ∧ (cur.set j 0).getD j 0 ≠ 0 ∧
                kill j = 0) := by intro h; omega
            have c2 : j ≤ j ∧ j < j + (k + 1) ∧ cur.getD j 0 ≠ 0 ∧ kill j = 0 :=
              ⟨le_refl _, by omega, hz, hk⟩
            rw [if_neg c1, if_pos c2]
            exact getD_set_self cur j 0 hl
          · rw [getD_set_other cur i j 0 hji]
            by_cases c : i ≤ j ∧ j < i + (k + 1) ∧ cur.getD j 0 ≠ 0 ∧ kill j = 0
            · have c2 : i + 1 ≤ j ∧ j < i + 1 + k ∧ cur.getD j 0 ≠ 0 ∧ kill j = 0 :=
                ⟨by omega, by omega, c.2.2.1, c.2.2.2⟩
              rw [if_pos c, if_pos c2]
            · have c2 : ¬ (i + 1 ≤ j ∧ j < i + 1 + k ∧ cur.getD j 0 ≠ 0 ∧ kill j = 0) := by
                intro h
                exact c ⟨by omega, by omega, h.2.2.1, h.2.2.2⟩
              rw [if_neg c, if_neg c2]
        · rw [a3, kill_sent_congr cur (cur.set i 0) k (i + 1)
            (fun j hj => getD_set_other cur i j 0 (by omega))]
          simp only [List.range'_succ, List.filter_cons, hz, decide_True, if_true,
            List.map_cons, List.append_assoc, List.singleton_append, ne_eq,
            not_false_eq_true]
      · have hstep : kill_all_from kill (k + 1) i (cur, sent) =
            kill_all_from kill k (i + 1) (cur, sent ++ [(cur.getD i 0, SIGKILL)]) := by
          simp only [kill_all_from, hz, hk, ne_eq, not_false_eq_true, if_true]
        rw [hstep]
        obtain ⟨a1, a2, a3⟩ := ih (i + 1) cur (sent ++ [(cur.getD i 0, SIGKILL)])
        refine ⟨fun j => ?_, a2, ?_⟩
        · rw [a1 j]
          by_cases c : i ≤ j ∧ j < i + (k + 1) ∧ cur.getD j 0 ≠ 0 ∧ kill j = 0
          · have hji : j ≠ i := by
              intro e; subst e; exact hk c.2.2.2
            have c2 : i + 1 ≤ j ∧ j < i + 1 + k ∧ cur.getD j 0 ≠ 0 ∧ kill j = 0 :=
              ⟨by omega, by omega, c.2.2.1, c.2.2.2⟩
            rw [if_pos c, if_pos c2]
          · have c2 : ¬ (i + 1 ≤ j ∧ j < i + 1 + k ∧ cur.getD j 0 ≠ 0 ∧ kill j = 0) := by
              intro h
              exact c ⟨by omega, by omega, h.2.2.1, h.2.2.2⟩
            rw [if_neg c, if_neg c2]
        · rw [a3]
          simp only [List.range'_succ, List.filter_cons, hz, decide_True, if_true,
            List.map_cons, List.append_assoc, List.singleton_append, ne_eq,
            not_false_eq_true]
    · have hstep : kill_all_from kill (k + 1) i (cur, sent) =
          kill_all_from kill k (i + 1) (cur, sent) := by
        simp only [kill_all_from, hz, if_false]
      rw [hstep]
      obtain ⟨a1, a2, a3⟩ := ih (i + 1) cur sent
      refine ⟨fun j => ?_, a2, ?_⟩
      · rw [a1 j]
        by_cases c : i ≤ j ∧ j < i + (k + 1) ∧ cur.getD j 0 ≠ 0 ∧ kill j = 0
        · have hji : j ≠ i := by
            intro e; subst e; exact hz c.2.2.1
          have c2 : i + 1 ≤ j ∧ j < i + 1 + k ∧ cur.getD j 0 ≠ 0 ∧ kill j = 0 :=
            ⟨by omega, by omega, c.2.2.1, c.2.2.2⟩
          rw [if_pos c, if_pos c2]
        · have c2 : ¬ (i + 1 ≤ j ∧ j < i + 1 + k ∧ cur.getD j 0 ≠ 0 ∧ kill j = 0) := by
            intro h
            exact c ⟨by omega, by omega, h.2.2.1, h.2.2.2⟩
          rw [if_neg c, if_neg c2]
      · rw [a3]
        simp only [List.range'_succ, List.filter_cons, hz, decide_False, Bool.false_eq_true,
          if_false]

/-- C3, as stated, fails: with pid 5 in both slots, slot 0 answered as still running
and slot 1 answered as terminated, `update_status` empties slot 0 and leaves the pid
in slot 1. -/
theorem update_status_counterexample :
    (fun i : Nat => if i = 0 then (0 : Int) else 5) 1 = ([5, 5] : List Int).getD 1 0 ∧
    (update_status (fun i => if i = 0 then 0 else 5) [5, 5]).1.getD 1 0 ≠ 0 ∧
    (fun i : Nat => if i = 0 then (0 : Int) else 5) 0 ≠ ([5, 5] : List Int).getD 0 0 ∧
    (update_status (fun i => if i = 0 then 0 else 5) [5, 5]).1.getD 0 0 ≠
      ([5, 5] : List Int).getD 0 0 := by
  decide

/-- C3 (amended): when the occupied slots of the table hold pairwise different pids,
then for every answer of the status checks, after `update_status` every slot whose
check reported its process terminated is empty, every other slot is unchanged, and
the reported pids are those of the terminated slots in increasing slot order, each
once. -/
theorem update_status_contract (waitpid : Nat → Int) (bproc : List Int)
    (hd : DistinctPids bproc) :
    (∀ i, i < MAXPRC → bproc.getD i 0 ≠ 0 → waitpid i = bproc.getD i 0 →
      (update_status waitpid bproc).1.getD i 0 = 0) ∧
    (∀ i, ¬ (bproc.getD i 0 ≠ 0 ∧ waitpid i = bproc.getD i 0) →
      (update_status waitpid bproc).1.getD i 0 = bproc.getD i 0) ∧
    (update_status waitpid bproc).1.length = bproc.length ∧
    (update_status waitpid bproc).2 =
      ((List.range MAXPRC).filter
        (fun i => decide (bproc.getD i 0 ≠ 0 ∧ waitpid i = bproc.getD i 0))).map
        (fun i => bproc.getD i 0) ∧
    (update_status waitpid bproc).2.Nodup := by
  have hD := distinct_idx bproc hd
  obtain ⟨a1, a2, a3⟩ := update_status_from_spec waitpid MAXPRC 0 bproc [] hD (by omega)
  have a4 : (update_status waitpid bproc).2 =
      ((List.range MAXPRC).filter
        (fun i => decide (bproc.getD i 0 ≠ 0 ∧ waitpid i = bproc.getD i 0))).map
        (fun i => bproc.getD i 0) := by
    unfold update_status
    rw [a3, List.range_eq_range']
    simp
  refine ⟨?_, ?_, a2, a4, ?_⟩
  · intro i hi hnz hw
    unfold update_status
    rw [a1 i, if_pos ⟨Nat.zero_le _, by omega, hnz, hw⟩]
  · intro i hn
    unfold update_status
    rw [a1 i, if_neg (fun h => hn ⟨h.2.2.1, h.2.2.2⟩)]
  · rw [a4]
    refine List.Nodup.map_on ?_ (List.Nodup.filter _ (List.nodup_range MAXPRC))
    intro x hx y _ hxy
    by_contra hne
    have hx2 := (List.mem_filter.mp hx).2
    simp only [decide_eq_true_eq] at hx2
    exact hD x y hne hx2.1 hxy

theorem update_status_contract_witness :
    (∀ i, i < MAXPRC → ([5, 7] : List Int).getD i 0 ≠ 0 →
      (fun _ => (7 : Int)) i = ([5, 7] : List Int).getD i 0 →
      (update_status (fun _ => 7) [5, 7]).1.getD i 0 = 0) ∧
    (∀ i, ¬ (([5, 7] : List Int).getD i 0 ≠ 0 ∧
        (fun _ => (7 : Int)) i = ([5, 7] : List Int).getD i 0) →
      (update_status (fun _ => 7) [5, 7]).1.getD i 0 = ([5, 7] : List Int).getD i 0) ∧
    (update_status (fun _ => 7) [5, 7]).1.length = ([5, 7] : List Int).length ∧
    (update_status (fun _ => 7) [5, 7]).2 =
      ((List.range MAXPRC).filter
        (fun i => decide (([5, 7] : List Int).getD i 0 ≠ 0 ∧
          (fun _ => (7 : Int)) i = ([5, 7] : List Int).getD i 0))).map
        (fun i => ([5, 7] : List Int).getD i 0) ∧
    (update_status (fun _ => 7) [5, 7]).2.Nodup :=
  update_status_contract (fun _ => 7) [5, 7] (by decide)

/-- C4, as stated, fails: when `kill` fails for the occupied slot, the slot still
holds its pid after `kill_all`. -/
theorem kill_all_counterexample :
    ¬ (∀ i, i < MAXPRC → (kill_all (fun _ => -1) [5, 0]).1.getD i 0 = 0) := by
  intro h
  exact absurd (h 0 (by decide)) (by decide)

/-- C4 (amended): for every table and every outcome of each `kill` call, `kill_all`
sends `SIGKILL` to the pid of every occupied slot, in slot order; afterwards every
occupied slot whose `kill` call succeeded is empty and every other slot is
unchanged (a slot whose `kill` call failed keeps its pid). -/
theorem kill_all_contract (kill : Nat → Int) (bproc : List Int) :
    (kill_all kill bproc).2 =
      ((List.range MAXPRC).filter (fun i => decide (bproc.getD i 0 ≠ 0))).map
        (fun i => (bproc.getD i 0, SIGKILL)) ∧
    (∀ i, i < MAXPRC → bproc.getD i 0 ≠ 0 → kill i = 0 →
      (kill_all kill bproc).1.getD i 0 = 0) ∧
    (∀ i, ¬ (bproc.getD i 0 ≠ 0 ∧ kill i = 0) →
      (kill_all kill bproc).1.getD i 0 = bproc.getD i 0) ∧
    (kill_all kill bproc).1.length = bproc.length := by
  obtain ⟨a1, a2, a3⟩ := kill_all_from_spec kill MAXPRC 0 bproc []
  refine ⟨?_, ?_, ?_, a2⟩
  · unfold kill_all
    rw [a3, List.range_eq_range']
    simp
  · intro i hi hnz hk
    unfold kill_all
    rw [a1 i, if_pos ⟨Nat.zero_le _, by omega, hnz, hk⟩]
  · intro i hn
    unfold kill_all
    rw [a1 i, if_neg (fun h => hn ⟨h.2.2.1, h.2.2.2⟩)]

/-! ## Background launches -/

theorem update_status_from_quiet (w : Nat → Int) (k : Nat) :
    ∀ (i : Nat) (cur out : List Int),
      (∀ j, cur.getD j 0 ≠ 0 → w j ≠ cur.getD j 0) →
      update_status_from w k i (cur, out) = (cur, out) := by
  induction k with
  | zero => intro i cur out _; rfl
  | succ k ih =>
    intro i cur out h
    by_cases hz : cur.getD i 0 ≠ 0
    · have hw := h i hz
      simp only [update_status_from, hz, hw, ne_eq, not_false_eq_true, if_true, if_false]
      exact ih (i + 1) cur out h
    · simp only [update_status_from, hz, if_false]
      exact ih (i + 1) cur out h

theorem reconcile_quiet (w : Nat → Int) (st : Shell) (h : ∀ i, w i = 0) :
    reconcile w st = st := by
  have e : update_status w st.bproc = (st.bproc, []) := by
    unfold update_status
    apply update_status_from_quiet
    intro j hj
    rw [h j]
    exact fun e => hj e.symm
  unfold reconcile
  rw [e]
  simp

theorem reconcile_quiet_list (ws : List (Nat → Int)) :
    ∀ (st : Shell), (∀ w ∈ ws, ∀ i, w i = 0) →
      ws.foldl (fun s w => reconcile w s) st = st := by
  induction ws with
  | nil => intro st _; rfl
  | cons w ws ih =>
    intro st h
    simp only [List.foldl_cons]
    rw [reconcile_quiet w st (h w (List.mem_cons_self _ _))]
    exact ih st (fun v hv => h v (List.mem_cons_of_mem _ hv))

theorem main_round_quiet_bg (r : Round) (st : Shell) (hbg : r.bg = true)
    (hq : r.quiet) (hpos : 0 < r.pid) :
    main_round r st = some (background_launch r.pid 0 st) := by
  obtain ⟨h1, h2, h3, h4⟩ := hq
  have hn1 : ¬ r.pid < 0 := by omega
  have hn2 : ¬ r.pid = 0 := by omega
  unfold main_round
  simp only [reconcile_quiet r.top st h1, reconcile_quiet r.prompt1 st h2,
    reconcile_quiet_list r.promptMore st h3, hbg, if_true, h4, hn1, hn2, if_false]

theorem getD_append_zeros_lt (xs : List Int) (m l : Nat) (hx : ∀ x ∈ xs, x ≠ 0)
    (hl : l < xs.length) : (xs ++ List.replicate m 0).getD l 0 ≠ 0 := by
  have e : (xs ++ List.replicate m 0).getD l 0 = xs[l] := by
    simp [List.getD_eq_getElem?_getD, List.getElem?_append_left hl,
      List.getElem?_eq_getElem hl]
  rw [e]
  exact hx _ (List.getElem_mem hl)

theorem getD_append_zeros_ge (xs : List Int) (m l : Nat) (hl : xs.length ≤ l) :
    (xs ++ List.replicate m 0).getD l 0 = 0 := by
  rw [List.getD_eq_getElem?_getD, List.getElem?_append_right hl, List.getElem?_replicate]
  split <;> rfl

theorem put_bg_full (p : Int) (xs : List Int) (hx : ∀ x ∈ xs, x ≠ 0)
    (hlen : MAXPRC ≤ xs.length) : put_bg p xs = (false, xs) := by
  unfold put_bg
  rcases put_bg_from_spec p MAXPRC 0 xs with ⟨_, j, _, hj2, hj3, _, _⟩ | ⟨h1, _, h3⟩
  · exfalso
    have := getD_append_zeros_lt xs 0 j hx (by omega)
    simp only [List.replicate_zero, List.append_nil] at this
    exact this hj3
  · exact Prod.ext h1 h3

theorem put_bg_room (p : Int) (xs : List Int) (m : Nat) (hx : ∀ x ∈ xs, x ≠ 0)
    (hlen : xs.length + (m + 1) = MAXPRC) :
    put_bg p (xs ++ List.replicate (m + 1) 0) = (true, (xs ++ [p]) ++ List.replicate m 0) := by
  unfold put_bg
  rcases put_bg_from_spec p MAXPRC 0 (xs ++ List.replicate (m + 1) 0) with
    ⟨h1, j, _, _, hj3, hj4, hj5⟩ | ⟨_, h2, _⟩
  · have hj : j = xs.length := by
      by_contra hne
      rcases Nat.lt_or_gt_of_ne hne with h | h
      · exact getD_append_zeros_lt xs (m + 1) j hx h hj3
      · exact hj4 xs.length (Nat.zero_le _) h
          (getD_append_zeros_ge xs (m + 1) xs.length (le_refl _))
    refine Prod.ext h1 ?_
    rw [hj5, hj, List.set_append_right _ _ (le_refl _)]
    simp [List.replicate_succ]
  · exact absurd (getD_append_zeros_ge xs (m + 1) xs.length (le_refl _))
      (h2 xs.length (Nat.zero_le _) (by omega))

theorem capacity_run : ∀ (rs : List Round) (xs : List Int) (m : Nat) (reaped : List Int)
    (sent : List (Int × Int)),
    (∀ x ∈ xs, x ≠ 0) → xs.length + m = MAXPRC →
    (∀ r ∈ rs, r.bg = true) → (∀ r ∈ rs, r.quiet) → (∀ r ∈ rs, 0 < r.pid) →
    main_rounds rs ⟨xs ++ List.replicate m 0, reaped, sent⟩ =
      some ⟨xs ++ (rs.map Round.pid).take m ++ List.replicate (m - rs.length) 0, reaped,
        sent ++ ((rs.map Round.pid).drop m).map (fun p => (p, SIGKILL))⟩ := by
  intro rs
  induction rs with
  | nil =>
    intro xs m reaped sent _ _ _ _ _
    simp [main_rounds]
  | cons r rs ih =>
    intro xs m reaped sent hx hlen hbg hq hpos
    have hbg2 : ∀ r ∈ rs, r.bg = true := fun q hq2 => hbg q (List.mem_cons_of_mem _ hq2)
    have hq2 : ∀ r ∈ rs, r.quiet := fun q h => hq q (List.mem_cons_of_mem _ h)
    have hnz2 : ∀ r ∈ rs, 0 < r.pid := fun q h => hpos q (List.mem_cons_of_mem _ h)
    have hp0 : 0 < r.pid := hpos r (List.mem_cons_self _ _)
    have hp : r.pid ≠ 0 := by omega
    simp only [main_rounds]
    rw [main_round_quiet_bg r _ (hbg r (List.mem_cons_self _ _))
      (hq r (List.mem_cons_self _ _)) hp0]
    cases m with
    | zero =>
      have e : background_launch r.pid 0 ⟨xs ++ List.replicate 0 0, reaped, sent⟩ =
          ⟨xs ++ List.replicate 0 0, reaped, sent ++ [(r.pid, SIGKILL)]⟩ := by
        unfold background_launch
        simp only [List.replicate_zero, List.append_nil,
          put_bg_full r.pid xs hx (by omega), if_true]
      simp only [e]
      rw [ih xs 0 reaped (sent ++ [(r.pid, SIGKILL)]) hx hlen hbg2 hq2 hnz2]
      simp
    | succ m =>
      have e : background_launch r.pid 0 ⟨xs ++ List.replicate (m + 1) 0, reaped, sent⟩ =
          ⟨(xs ++ [r.pid]) ++ List.replicate m 0, reaped, sent⟩ := by
        unfold background_launch
        have hne : ¬ (0 : Int) = r.pid := fun e => hp e.symm
        simp only [put_bg_room r.pid xs m hx hlen, Bool.true_eq_false, if_false, hne]
      simp only [e]
      have hx2 : ∀ x ∈ xs ++ [r.pid], x ≠ 0 := by
        intro x hxm
        rcases List.mem_append.mp hxm with h | h
        · exact hx x h
        · rw [List.mem_singleton.mp h]; exact hp
      rw [ih (xs ++ [r.pid]) m reaped sent hx2 (by simp; omega) hbg2 hq2 hnz2]
      simp

theorem capacity_from_init (rs : List Round)
    (hbg : ∀ r ∈ rs, r.bg = true) (hq : ∀ r ∈ rs, r.quiet) (hnz : ∀ r ∈ rs, 0 < r.pid) :
    main_rounds rs Shell.init =
      some ⟨(rs.map Round.pid).take MAXPRC ++ List.replicate (MAXPRC - rs.length) 0, [],
        ((rs.map Round.pid).drop MAXPRC).map (fun p => (p, SIGKILL))⟩ := by
  have h := capacity_run rs [] MAXPRC [] [] (by simp) (by simp) hbg hq hnz
  simpa [Shell.init, init_bproc, init_bproc_from, MAXPRC] using h

theorem take_hyp {P : Round → Prop} (rs : List Round) (n : Nat) (h : ∀ r ∈ rs, P r) :
    ∀ r ∈ rs.take n, P r :=
  fun r hr => h r (List.mem_of_mem_take hr)

theorem mem_take_take (l : List Int) (n m : Nat) (p : Int)
    (h : p ∈ (l.take n).take m) : p ∈ l.take m := by
  rw [List.take_take] at h
  have e : l.take (min m n) = (l.take m).take (min m n) := by
    rw [List.take_take]
    congr 1
    omega
  rw [e] at h
  exact List.mem_of_mem_take h

/-- C5: starting from the empty table, after any sequence of background launches of
pairwise distinct pids (each the positive value `fork` gave the parent, hence
non-zero) during which no status check sees a child finish,
the first `min(N, MAXPRC)` pids are in the table, every later pid is answered
`put_bg = false` and sent `SIGKILL`, and no later pid is in the table after any
number of the launches. -/
theorem capacity (rs : List Round)
    (hbg : ∀ r ∈ rs, r.bg = true) (hq : ∀ r ∈ rs, r.quiet) (hnz : ∀ r ∈ rs, 0 < r.pid)
    (hnd : (rs.map Round.pid).Nodup) :
    ∃ st, main_rounds rs Shell.init = some st ∧
      (∀ p ∈ (rs.map Round.pid).take (min rs.length MAXPRC), p ∈ st.bproc) ∧
      st.bproc = (rs.map Round.pid).take MAXPRC ++ List.replicate (MAXPRC - rs.length) 0 ∧
      st.sent = ((rs.map Round.pid).drop MAXPRC).map (fun p => (p, SIGKILL)) ∧
      (∀ n, MAXPRC ≤ n → n < rs.length →
        ∃ stn, main_rounds (rs.take n) Shell.init = some stn ∧
          (put_bg ((rs.map Round.pid).getD n 0) stn.bproc).1 = false) ∧
      (∀ p ∈ (rs.map Round.pid).drop MAXPRC, ∀ n stn,
        main_rounds (rs.take n) Shell.init = some stn → p ∉ stn.bproc) := by
  refine ⟨_, capacity_from_init rs hbg hq hnz, ?_, ?_, rfl, ?_, ?_⟩
  · intro p hp
    have e : (rs.map Round.pid).take (min rs.length MAXPRC) =
        (rs.map Round.pid).take MAXPRC := by
      rcases Nat.le_total rs.length MAXPRC with h | h
      · rw [Nat.min_eq_left h, List.take_of_length_le (by simp),
          List.take_of_length_le (by simpa using h)]
      · rw [Nat.min_eq_right h]
    rw [e] at hp
    exact List.mem_append_left _ hp
  · rfl
  · intro n hn1 hn2
    refine ⟨_, capacity_from_init (rs.take n) (take_hyp rs n hbg) (take_hyp rs n hq)
      (take_hyp rs n hnz), ?_⟩
    have hl : (rs.take n).length = n := by
      rw [List.length_take]; omega
    have hz : MAXPRC - (rs.take n).length = 0 := by omega
    simp only [hz, List.replicate_zero, List.append_nil]
    have hf := put_bg_full ((rs.map Round.pid).getD n 0)
      (((rs.take n).map Round.pid).take MAXPRC) ?_ ?_
    · rw [hf]
    · intro x hx
      obtain ⟨r, hr, hrx⟩ := List.mem_map.mp (List.mem_of_mem_take hx)
      rw [← hrx]
      exact ne_of_gt (hnz r (List.mem_of_mem_take hr))
    · simp only [List.length_take, List.length_map]
      omega
  · intro p hp n stn hrun hmem
    rw [capacity_from_init (rs.take n) (take_hyp rs n hbg) (take_hyp rs n hq)
      (take_hyp rs n hnz)] at hrun
    have hst : stn.bproc = ((rs.take n).map Round.pid).take MAXPRC ++
        List.replicate (MAXPRC - (rs.take n).length) 0 := by
      rw [← Option.some.inj hrun]
    rw [hst] at hmem
    obtain ⟨r, hr, hrp⟩ := List.mem_map.mp (List.mem_of_mem_drop hp)
    have hp0 : p ≠ 0 := by
      rw [← hrp]; exact ne_of_gt (hnz r hr)
    rcases List.mem_append.mp hmem with h | h
    · rw [List.map_take] at h
      have h2 := mem_take_take (rs.map Round.pid) n MAXPRC p h
      have hsplit := List.take_append_drop MAXPRC (rs.map Round.pid)
      rw [← hsplit] at hnd
      exact (List.disjoint_of_nodup_append hnd) h2 hp
    · exact hp0 (List.eq_of_mem_replicate h)

theorem capacity_witness :
    ∃ st, main_rounds [quietBg 11, quietBg 12, quietBg 13] Shell.init = some st ∧
      (∀ p ∈ ([quietBg 11, quietBg 12, quietBg 13].map Round.pid).take
          (min [quietBg 11, quietBg 12, quietBg 13].length MAXPRC), p ∈ st.bproc) ∧
      st.bproc = [11, 12] ∧
      st.sent = (([quietBg 11, quietBg 12, quietBg 13].map Round.pid).drop MAXPRC).map
        (fun p => (p, SIGKILL)) ∧
      (∀ n, MAXPRC ≤ n → n < [quietBg 11, quietBg 12, quietBg 13].length →
        ∃ stn, main_rounds ([quietBg 11, quietBg 12, quietBg 13].take n) Shell.init =
            some stn ∧
          (put_bg (([quietBg 11, quietBg 12, quietBg 13].map Round.pid).getD n 0)
            stn.bproc).1 = false) ∧
      (∀ p ∈ ([quietBg 11, quietBg 12, quietBg 13].map Round.pid).drop MAXPRC, ∀ n stn,
        main_rounds ([quietBg 11, quietBg 12, quietBg 13].take n) Shell.init = some stn →
          p ∉ stn.bproc) :=
  capacity [quietBg 11, quietBg 12, quietBg 13]
    (by intro r hr
        simp only [List.mem_cons, List.mem_singleton, List.not_mem_nil, or_false] at hr
        rcases hr with h | h | h <;> rw [h] <;> rfl)
    (by intro r hr
        simp only [List.mem_cons, List.mem_singleton, List.not_mem_nil, or_false] at hr
        rcases hr with h | h | h <;> rw [h] <;>
          exact ⟨fun _ => rfl, fun _ => rfl, fun _ hw => absurd hw (List.not_mem_nil _), rfl⟩)
    (by intro r hr
        simp only [List.mem_cons, List.mem_singleton, List.not_mem_nil, or_false] at hr
        rcases hr with h | h | h <;> rw [h] <;> decide)
    (by decide)

/-! ## Termination of the parsing loops

The fuel given to the loops of `parseCommand` is never exhausted: one more round of
fuel does not change the result. -/

theorem getD_NUL_of_length_le (buf : List Char) (u : Nat) (h : buf.length ≤ u) :
    buf.getD u NUL = NUL := by
  simp [List.getD_eq_getElem?_getD, List.getElem?_eq_none h]

theorem skip_blanks_length (k : Nat) :
    ∀ (buf : List Char) (u : Nat), (skip_blanks k buf u).1.length = buf.length := by
  induction k with
  | zero => intro buf u; rfl
  | succ k ih =>
    intro buf u
    unfold skip_blanks
    split
    · rw [ih]; simp
    · rfl

theorem skip_blanks_ge (k : Nat) :
    ∀ (buf : List Char) (u : Nat), u ≤ (skip_blanks k buf u).2 := by
  induction k with
  | zero => intro buf u; exact le_refl _
  | succ k ih =>
    intro buf u
    unfold skip_blanks
    split
    · exact le_trans (Nat.le_succ u) (ih _ (u + 1))
    · exact le_refl _

theorem skip_blanks_adv (k : Nat) (buf : List Char) (u : Nat)
    (h : isBlank (buf.getD u NUL) = true) : u < (skip_blanks (k + 1) buf u).2 := by
  unfold skip_blanks
  rw [if_pos h]
  exact skip_blanks_ge k _ (u + 1)

theorem skip_arg_ge (k : Nat) (buf : List Char) :
    ∀ (u : Nat), u ≤ skip_arg k buf u := by
  induction k with
  | zero => intro u; exact le_refl _
  | succ k ih =>
    intro u
    unfold skip_arg
    split
    · exact le_trans (Nat.le_succ u) (ih (u + 1))
    · exact le_refl _

theorem skip_arg_adv (k : Nat) (buf : List Char) (u : Nat)
    (h1 : buf.getD u NUL ≠ NUL) (h2 : isBlank (buf.getD u NUL) = false) :
    u < skip_arg (k + 1) buf u := by
  unfold skip_arg
  rw [if_pos ⟨h1, h2⟩]
  exact skip_arg_ge k buf (u + 1)

theorem skip_blanks_fuel (k : Nat) :
    ∀ (buf : List Char) (u : Nat), buf.length ≤ u + k →
      skip_blanks (k + 1) buf u = skip_blanks k buf u := by
  induction k with
  | zero =>
    intro buf u h
    have e := getD_NUL_of_length_le buf u (by omega)
    have hb : isBlank NUL = false := by decide
    simp only [skip_blanks, e, hb, Bool.false_eq_true, if_false]
  | succ k ih =>
    intro buf u h
    by_cases hb : isBlank (buf.getD u NUL) = true
    · rw [skip_blanks, if_pos hb]
      conv => rhs; rw [skip_blanks, if_pos hb]
      exact ih _ _ (by simp; omega)
    · rw [skip_blanks, if_neg hb]
      conv => rhs; rw [skip_blanks, if_neg hb]

theorem skip_arg_fuel (k : Nat) (buf : List Char) :
    ∀ (u : Nat), buf.length ≤ u + k → skip_arg (k + 1) buf u = skip_arg k buf u := by
  induction k with
  | zero =>
    intro u h
    have e := getD_NUL_of_length_le buf u (by omega)
    simp only [skip_arg, e, ne_eq, not_true_eq_false, false_and, if_false]
  | succ k ih =>
    intro u h
    by_cases hb : buf.getD u NUL ≠ NUL ∧ isBlank (buf.getD u NUL) = false
    · rw [skip_arg, if_pos hb]
      conv => rhs; rw [skip_arg, if_pos hb]
      exact ih _ (by omega)
    · rw [skip_arg, if_neg hb]
      conv => rhs; rw [skip_arg, if_neg hb]

theorem parse_round_adv (buf : List Char) (u : Nat) (h : buf.getD u NUL ≠ NUL) :
    u < skip_arg buf.length (skip_blanks buf.length buf u).1
      (skip_blanks buf.length buf u).2 := by
  have hu : u < buf.length := by
    by_contra hc
    exact h (getD_NUL_of_length_le buf u (by omega))
  obtain ⟨n, hn⟩ : ∃ n, buf.length = n + 1 := ⟨buf.length - 1, by omega⟩
  rw [hn]
  by_cases hb : isBlank (buf.getD u NUL) = true
  · exact lt_of_lt_of_le (skip_blanks_adv n buf u hb) (skip_arg_ge _ _ _)
  · have hb2 : isBlank (buf.getD u NUL) = false := by
      cases hv : isBlank (buf.getD u NUL)
      · rfl
      · exact absurd hv hb
    have e : skip_blanks (n + 1) buf u = (buf, u) := by
      unfold skip_blanks
      rw [if_neg hb]
    rw [e]
    exact skip_arg_adv n buf u h hb2

theorem parse_from_fuel (k : Nat) :
    ∀ (buf : List Char) (u : Nat) (argv : List Nat) (count : Nat),
      buf.length ≤ u + k →
      parse_from (k + 1) buf u argv count = parse_from k buf u argv count := by
  induction k with
  | zero =>
    intro buf u argv count h
    have e := getD_NUL_of_length_le buf u (by omega)
    simp only [parse_from, e, ne_eq, not_true_eq_false, if_false]
  | succ k ih =>
    intro buf u argv count h
    by_cases hz : buf.getD u NUL ≠ NUL
    · have hadv := parse_round_adv buf u hz
      have hlen := skip_blanks_length buf.length buf u
      rw [parse_from, if_pos hz]
      conv => rhs; rw [parse_from, if_pos hz]
      exact ih _ _ _ _ (by omega)
    · rw [parse_from, if_neg hz]
      conv => rhs; rw [parse_from, if_neg hz]

/-- The result of `parseCommand` does not depend on the fuel: any larger number of
rounds gives the same buffer, pointers and count. -/
theorem parseCommand_fuel (ucommand : List Char) (extra : Nat) :
    parse_from (ucommand.length + extra) ucommand 0 [] 0 = parseCommand ucommand := by
  induction extra with
  | zero => rfl
  | succ n ih =>
    rw [← ih]
    exact parse_from_fuel (ucommand.length + n) ucommand 0 [] 0 (by omega)

/-! ## Classification and the `kill` built-in -/

/-- C6 (failing inputs): on the line `ls<TAB>&` the parsed argument list ends in `&`,
yet `numargs` is 0, `argv[0]` is compared and the command is classified Foreground
with `&` left in the list; on the line `a<TAB>& b` the list ends in `b`, yet
`argv[1]` is `&` and the command is classified Background with the list cut to
`a`. -/
theorem classify_tab_separated :
    (parsedArgs "ls\t&".toList).getLast? = some "&".toList ∧
    classify "ls\t&".toList = some ⟨false, true, ["ls".toList, "&".toList], 0⟩ ∧
    (parsedArgs "a\t& b".toList).getLast? = some "b".toList ∧
    classify "a\t& b".toList = some ⟨true, false, ["a".toList], 1⟩ := by
  decide

theorem getElem?_append_cons_self (pre : List (List Char)) (x : List Char)
    (rest : List (List Char)) : (pre ++ x :: rest)[pre.length]? = some x := by
  rw [List.getElem?_append_right (le_refl _)]
  simp

theorem kill_loop_refused (main_pid shell_pid self_pid pgrp : Int) (a : List Char)
    (post : List (List Char)) (ha : protectedArg main_pid shell_pid a) :
    ∀ (mid pre : List (List Char)) (n : Nat) (bproc : List Int) (sent : List (Int × Int)),
      mid.length < n → (∀ x ∈ mid, ¬ protectedArg main_pid shell_pid x) →
      (∀ x ∈ mid, kill_hits_caller self_pid pgrp (atoi x) = false) →
      kill_loop main_pid shell_pid self_pid pgrp (pre ++ (mid ++ a :: post)) n pre.length
          (bproc, sent) =
        (KillExit.refused, (mid.map atoi).foldl (fun t p => (rm_bg p t).2) bproc,
          sent ++ (mid.map atoi).map (fun p => (p, SIGKILL))) := by
  intro mid
  induction mid with
  | nil =>
    intro pre n bproc sent hn _ _
    cases n with
    | zero => exact absurd hn (Nat.not_lt_zero _)
    | succ n =>
      have e : (pre ++ ([] ++ a :: post))[pre.length]? = some a :=
        getElem?_append_cons_self pre a post
      unfold protectedArg at ha
      simp only [kill_loop, e, ha, if_true, List.map_nil, List.foldl_nil, List.append_nil]
  | cons x mid ih =>
    intro pre n bproc sent hn hm hs
    cases n with
    | zero => exact absurd hn (Nat.not_lt_zero _)
    | succ n =>
      have e : (pre ++ (x :: mid ++ a :: post))[pre.length]? = some x :=
        getElem?_append_cons_self pre x (mid ++ a :: post)
      have hx : ¬ (atoi x = main_pid ∨ atoi x = shell_pid) := hm x (List.mem_cons_self _ _)
      have hx2 : kill_hits_caller self_pid pgrp (atoi x) = false :=
        hs x (List.mem_cons_self _ _)
      have hl : (pre ++ [x]).length = pre.length + 1 := by simp
      have hs2 : pre ++ (x :: mid ++ a :: post) = (pre ++ [x]) ++ (mid ++ a :: post) := by
        simp
      have hn2 : mid.length < n := by
        simp only [List.length_cons] at hn
        omega
      simp only [kill_loop, e, hx, hx2, if_false, Bool.false_eq_true]
      rw [hs2, ← hl, ih (pre ++ [x]) n _ _ hn2 (fun y hy => hm y (List.mem_cons_of_mem _ hy))
        (fun y hy => hs y (List.mem_cons_of_mem _ hy))]
      simp

/-- The model of `atoi` on an argument outside the range of `int`, and two runs of
the `kill` block that depend on it or on a signal reaching the child itself: with
`main_pid = 42`, `kill 4294967338 42` is refused at its first argument (which reads
as 42) with no signal sent, and on `kill abc 42` the call `kill(0, SIGKILL)` ends
the child before the test of the second argument. -/
theorem kill_block_edge_runs :
    atoi "4294967338".toList = 42 ∧
    child_kill 42 1 77 42 "kill 4294967338 42".toList [100, 0] =
      some (KillExit.refused, [100, 0], []) ∧
    child_kill 42 1 77 42 "kill abc 42".toList [100, 0] =
      some (KillExit.killed, [100, 0], [(0, SIGKILL)]) ∧
    child_kill 42 1 77 42 "kill\t42".toList [100, 0] =
      some (KillExit.passed, [100, 0], []) :=
  ⟨by decide, by decide, by decide, by decide⟩

/-- C7, as stated, fails: with `main_pid = 42`, the command `kill 100 42` sends
`SIGKILL` to 100 and retires 100 from the table before the refusal at 42. -/
theorem kill_protective_counterexample :
    protectedArg 42 1 "42".toList ∧
    child_kill 42 1 77 42 "kill 100 42".toList [100, 0] =
      some (KillExit.refused, [0, 0], [(100, SIGKILL)]) ∧
    ¬ (child_kill 42 1 77 42 "kill 100 42".toList [100, 0] =
      some (KillExit.refused, [100, 0], [])) := by
  decide

/-- C7 (amended): in a `kill` command that enters the `kill` block (`numargs >= 1`),
when the first argument that `atoi` reads as `main_pid` or `shell_pid` stands among
the first `MAXPRC` arguments and no argument before it makes `kill` signal the
child itself, the built-in retires and signals exactly the arguments standing
before it, in order, and then refuses; when it is the first argument, no signal is
sent and the table is unchanged. -/
theorem kill_builtin_refuses (main_pid shell_pid self_pid pgrp : Int)
    (before after : List (List Char)) (a : List Char) (numargs : Nat) (bproc : List Int)
    (hnum : 1 ≤ numargs) (hpos : before.length < MAXPRC)
    (ha : protectedArg main_pid shell_pid a)
    (hb : ∀ x ∈ before, ¬ protectedArg main_pid shell_pid x)
    (hs : ∀ x ∈ before, kill_hits_caller self_pid pgrp (atoi x) = false) :
    kill_builtin main_pid shell_pid self_pid pgrp (killWord :: (before ++ a :: after))
        numargs bproc =
        (KillExit.refused, (before.map atoi).foldl (fun t p => (rm_bg p t).2) bproc,
          (before.map atoi).map (fun p => (p, SIGKILL))) ∧
    (before = [] →
      kill_builtin main_pid shell_pid self_pid pgrp (killWord :: (before ++ a :: after))
        numargs bproc =
        (KillExit.refused, bproc, [])) := by
  have h := kill_loop_refused main_pid shell_pid self_pid pgrp a after ha before [killWord]
    MAXPRC bproc [] hpos hb hs
  have e : kill_builtin main_pid shell_pid self_pid pgrp (killWord :: (before ++ a :: after))
      numargs bproc =
      (KillExit.refused, (before.map atoi).foldl (fun t p => (rm_bg p t).2) bproc,
        (before.map atoi).map (fun p => (p, SIGKILL))) := by
    unfold kill_builtin
    simp only [hnum, if_true, List.getElem?_cons_zero]
    simpa using h
  refine ⟨e, fun hnil => ?_⟩
  rw [e, hnil]
  rfl

theorem kill_builtin_refuses_witness :
    kill_builtin 42 1 77 42 (killWord :: (["100".toList] ++ "42".toList :: [])) 2 [100, 7] =
        (KillExit.refused,
          ((["100".toList]).map atoi).foldl (fun t p => (rm_bg p t).2) [100, 7],
          ((["100".toList]).map atoi).map (fun p => (p, SIGKILL))) ∧
    (["100".toList] = [] →
      kill_builtin 42 1 77 42 (killWord :: (["100".toList] ++ "42".toList :: [])) 2
        [100, 7] =
        (KillExit.refused, [100, 7], [])) :=
  kill_builtin_refuses 42 1 77 42 ["100".toList] [] "42".toList 2 [100, 7] (by decide)
    (by decide) (by decide) (by decide) (by decide)

/-- C8 (failing inputs): with `MAXPRC = 2`, the command `kill 100 200 300` retires and
signals 100 and 200 only and leaves the block with 300 still in the table; the
command `kill 100` signals 100 and then evaluates `atoi(argv[2])` on the
terminating NULL of the argument list. -/
theorem kill_builtin_fixed_bound :
    child_kill 42 1 77 42 "kill 100 200 300".toList [100, 300] =
      some (KillExit.passed, [0, 300], [(100, SIGKILL), (200, SIGKILL)]) ∧
    child_kill 42 1 77 42 "kill 100".toList [100, 0] =
      some (KillExit.fault, [0, 0], [(100, SIGKILL)]) := by
  decide

/-! ## The table invariant -/

/-- C9 (failing input): background child 5 is registered, then a foreground command
with child 6 runs and `wait` returns 5 before it returns 6. Afterwards pid 5 is
both collected and still in the table, and a later `update_status` whose `waitpid`
call fails (the child no longer exists) leaves it there. -/
theorem foreground_wait_reaps_background :
    main_rounds [quietBg 5, fgRound 6 [5, 6]] Shell.init = some ⟨[5, 0], [5, 6], []⟩ ∧
    (5 : Int) ∈ ([5, 0] : List Int) ∧ (5 : Int) ∈ ([5, 6] : List Int) ∧
    reconcile (fun _ => -1) ⟨[5, 0], [5, 6], []⟩ = ⟨[5, 0], [5, 6], []⟩ := by
  decide

/-- C10, as stated, fails: on a table holding pid 5 in both slots the second
`rm_bg(5)` returns true and clears the other slot. -/
theorem rm_bg_twice_counterexample :
    ¬ ((rm_bg 5 (rm_bg 5 [5, 5]).2).1 = false ∧
        (rm_bg 5 (rm_bg 5 [5, 5]).2).2 = (rm_bg 5 [5, 5]).2) := by
  decide

/-- C10 (amended): for a non-zero pid held by at most one slot of the table, a second
`rm_bg(pid)` right after the first returns false and leaves the table as the first
call left it. -/
theorem rm_bg_twice (bproc : List Int) (bpid : Int) (hnz : bpid ≠ 0)
    (honce : bproc.count bpid ≤ 1) :
    (rm_bg bpid (rm_bg bpid bproc).2).1 = false ∧
      (rm_bg bpid (rm_bg bpid bproc).2).2 = (rm_bg bpid bproc).2 := by
  unfold rm_bg
  rcases rm_bg_from_spec bpid MAXPRC 0 bproc with
    ⟨_, j, _, _, hj3, _, hj5⟩ | ⟨h1, _, h3⟩
  · rw [hj5]
    have hjl : j < bproc.length :=
      lt_length_of_getD_ne_zero bproc j (by rw [hj3]; exact hnz)
    rcases rm_bg_from_spec bpid MAXPRC 0 (bproc.set j 0) with
      ⟨_, j2, _, _, hk3, _, _⟩ | ⟨g1, _, g3⟩
    · exfalso
      have hne : j2 ≠ j := by
        intro e
        rw [e, getD_set_self bproc j 0 hjl] at hk3
        exact hnz hk3.symm
      rw [getD_set_other bproc j j2 0 hne] at hk3
      exact hne (idx_eq_of_count_le_one bproc bpid hnz honce j2 j hk3 hj3)
    · exact ⟨g1, g3⟩
  · rw [h3]
    exact ⟨h1, h3⟩

theorem rm_bg_twice_witness :
    (rm_bg 5 (rm_bg 5 [7, 5]).2).1 = false ∧
      (rm_bg 5 (rm_bg 5 [7, 5]).2).2 = (rm_bg 5 [7, 5]).2 :=
  rm_bg_twice [7, 5] 5 (by decide) (by decide)

/-! ## The count returned by `parseCommand` -/

theorem parse_from_count (k : Nat) :
    ∀ (buf : List Char) (u : Nat) (argv : List Nat) (count : Nat),
      buf.length ≤ u + k →
      (parse_from k buf u argv count).2.2 + argv.length ≤
          (parse_from k buf u argv count).2.1.length + count ∧
      (buf.getD u NUL ≠ NUL →
        (parse_from k buf u argv count).2.2 + argv.length <
          (parse_from k buf u argv count).2.1.length + count) := by
  induction k with
  | zero =>
    intro buf u argv count h
    refine ⟨?_, fun hz => ?_⟩
    · show count + argv.length ≤ argv.length + count
      omega
    · exact absurd (getD_NUL_of_length_le buf u (by omega)) hz
  | succ k ih =>
    intro buf u argv count h
    by_cases hz : buf.getD u NUL ≠ NUL
    · have hadv := parse_round_adv buf u hz
      have hlen := skip_blanks_length buf.length buf u
      rw [parse_from, if_pos hz]
      obtain ⟨a1, a2⟩ := ih (skip_blanks buf.length buf u).1
        (skip_arg buf.length (skip_blanks buf.length buf u).1 (skip_blanks buf.length buf u).2)
        (argv ++ [(skip_blanks buf.length buf u).2])
        (if (skip_blanks buf.length buf u).1.getD
            (skip_arg buf.length (skip_blanks buf.length buf u).1
              (skip_blanks buf.length buf u).2) NUL = Char.ofNat 32
          then count + 1 else count)
        (by omega)
      simp only [List.length_append, List.length_singleton] at a1 a2
      by_cases hsp : (skip_blanks buf.length buf u).1.getD
          (skip_arg buf.length (skip_blanks buf.length buf u).1
            (skip_blanks buf.length buf u).2) NUL = Char.ofNat 32
      · have hne : (skip_blanks buf.length buf u).1.getD
            (skip_arg buf.length (skip_blanks buf.length buf u).1
              (skip_blanks buf.length buf u).2) NUL ≠ NUL := by
          rw [hsp]; decide
        have a3 := a2 hne
        simp only [hsp, if_true] at a3 ⊢
        exact ⟨by omega, fun _ => by omega⟩
      · simp only [hsp, if_false] at a1 ⊢
        exact ⟨by omega, fun _ => by omega⟩
    · rw [parse_from, if_neg hz]
      refine ⟨?_, fun h2 => absurd h2 hz⟩
      show count + argv.length ≤ argv.length + count
      omega

/-- On every non-empty command line the count returned by `parseCommand` is smaller
than the number of argument pointers it stored. -/
theorem parseCommand_count_lt (ucommand : List Char) (h : ucommand.getD 0 NUL ≠ NUL) :
    (parseCommand ucommand).2.2 < (parseCommand ucommand).2.1.length := by
  have := (parse_from_count ucommand.length ucommand 0 [] 0 (by omega)).2 h
  simpa [parseCommand] using this

/-- C11 (failing inputs): on the line `ls -l` `parseCommand` stores the two arguments
`ls` and `-l` and returns 1; on `ls` it stores one argument and returns 0; on
`ls<TAB>-l` it stores two arguments and returns 0. -/
theorem parseCommand_count_off_by_one :
    parsedArgs "ls -l".toList = ["ls".toList, "-l".toList] ∧
    (parseCommand "ls -l".toList).2.1.length = 2 ∧
    (parseCommand "ls -l".toList).2.2 = 1 ∧
    (parseCommand "ls".toList).2.1.length = 1 ∧
    (parseCommand "ls".toList).2.2 = 0 ∧
    (parseCommand "ls\t-l".toList).2.1.length = 2 ∧
    (parseCommand "ls\t-l".toList).2.2 = 0 := by
  decide

end Psh
